import Mathlib

/-!
Verification of the cs50ai repository specification against its source.

The development shallowly embeds the four Python modules of the repository:
`tictactoe.py`, `puzzle.py` (knights), `heredity.py` and `pagerank.py`.
Probabilities are embedded as rationals (exact arithmetic); Python
exceptions are embedded as explicit error outcomes (`Option` or a dedicated
outcome type).
-/

namespace TicTacToe

/-- A mark on the tic-tac-toe board: the Python module uses the strings
"X" and "O"; the empty cell is Python `None`, embedded as `Option.none`. -/
inductive Mark where
  | X
  | O
deriving DecidableEq, Repr

/-- A board is a list of rows of optional marks, mirroring the 3 by 3
list-of-lists of `tictactoe.py` with `EMPTY = None`. -/
abbrev Board := List (List (Option Mark))

/-- The starting board of `initial_state`: all nine cells empty. -/
def initial_state : Board :=
  [[none, none, none],
   [none, none, none],
   [none, none, none]]

/-- Reads cell (i, j), the embedding of the Python expression
`board[i][j]` on an in-range index of a 3 by 3 board. -/
def cellAt (board : Board) (i j : Nat) : Option Mark :=
  (board.getD i []).getD j none

/-- Count of cells holding mark m, the counting loop of `player`. -/
def countMark (board : Board) (m : Mark) : Nat :=
  (board.map (fun row => (row.filter (fun cell => cell = some m)).length)).sum

/-- Embedding of `terminal` from `tictactoe.py`: the source returns
`False` as soon as it sees an empty cell and `True` otherwise, so it is
true exactly when no cell is empty.  The source never consults `winner`
here. -/
def terminal (board : Board) : Bool :=
  board.all (fun row => row.all (fun cell => cell.isSome))

/-- Embedding of `player` from `tictactoe.py`: O when X has moved more
often, X on a non-terminal board with equal counts, Python `None`
otherwise. -/
def player (board : Board) : Option Mark :=
  let numX := countMark board .X
  let numO := countMark board .O
  if numX > numO then some .O
  else if !(terminal board) && numX = numO then some .X
  else none

/-- Embedding of `actions` from `tictactoe.py`: the coordinates (i, j)
with i, j ranging over 0, 1, 2 whose cell is empty. -/
def actions (board : Board) : List (Nat × Nat) :=
  (List.range 3).flatMap (fun i =>
    (List.range 3).filterMap (fun j =>
      if cellAt board i j = none then some (i, j) else none))

/-- Outcome of a call to `result`: either a returned board or one of the
Python exceptions that the call can raise.  `typeError` stands for a
Python `TypeError`. -/
inductive Outcome where
  | ok (board : Board)
  | gameOver
  | invalidAction
  | typeError
deriving DecidableEq, Repr

/-- Embedding of `result` from `tictactoe.py`, following its control flow
exactly.  Every path of the source raises `TypeError`:
on a terminal board the statement `raise GameOver` instantiates the
`GameOver` class, whose `__init__` requires two positional arguments, so
the instantiation itself raises `TypeError`; the `raise InvalidAction`
path fails the same way; and the normal path executes
`result_board[i, j] = p`, which indexes a Python list with a tuple and
raises `TypeError` before any board is returned. -/
def result (board : Board) (action : Nat × Nat) : Outcome :=
  if terminal board then
    Outcome.typeError
  else if action ∉ actions board then
    Outcome.typeError
  else
    Outcome.typeError

/-- Writes mark value into cell (i, j) of the board, the corrected form
`result_board[i][j] = p` of the assignment in `result`. -/
def setCell (board : Board) (i j : Nat) (value : Option Mark) : Board :=
  board.set i ((board.getD i []).set j value)

/-- Modelled from the spec: `result` as section 4.4 describes it — a new
board with the current player placed at the action, `GameOver` on a
terminal input and `InvalidAction` on an occupied or out-of-bounds
cell. -/
def spec_result (board : Board) (action : Nat × Nat) : Outcome :=
  if terminal board then
    Outcome.gameOver
  else if action ∉ actions board then
    Outcome.invalidAction
  else
    Outcome.ok (setCell board action.1 action.2 (player board))

/-- Full board used as a terminal input in counterexamples. -/
def fullBoard : Board :=
  [[some .X, some .O, some .X],
   [some .X, some .O, some .O],
   [some .O, some .X, some .X]]

/-- A board on which X has completed the top row while empty cells
remain: X X X / O O _ / _ _ _. -/
def xWinBoard : Board :=
  [[some .X, some .X, some .X],
   [some .O, some .O, none],
   [none, none, none]]

/-- True when the three given cells hold the same non-empty mark. -/
def lineFilled (board : Board) (c1 c2 c3 : Nat × Nat) : Bool :=
  match cellAt board c1.1 c1.2 with
  | none => false
  | some m =>
      cellAt board c2.1 c2.2 = some m && cellAt board c3.1 c3.2 = some m

/-- The eight winning lines of the 3 by 3 grid. -/
def allLines : List ((Nat × Nat) × (Nat × Nat) × (Nat × Nat)) :=
  [((0, 0), (0, 1), (0, 2)),
   ((1, 0), (1, 1), (1, 2)),
   ((2, 0), (2, 1), (2, 2)),
   ((0, 0), (1, 0), (2, 0)),
   ((0, 1), (1, 1), (2, 1)),
   ((0, 2), (1, 2), (2, 2)),
   ((0, 0), (1, 1), (2, 2)),
   ((0, 2), (1, 1), (2, 0))]

/-- True when some player has a complete row, column or diagonal. -/
def hasWinningLine (board : Board) : Bool :=
  allLines.any (fun l => lineFilled board l.1 l.2.1 l.2.2)

/-- Modelled from the spec: `terminal` as section 4.4 describes it — true
iff there is a winner or no empty cells remain. -/
def spec_terminal (board : Board) : Bool :=
  hasWinningLine board || terminal board

/-- C6: the claim states that `terminal` returns true on a non-full board
containing a winning line.  The source `terminal` only tests fullness: on
the board X X X / O O _ / _ _ _ it returns false although the top row is
a complete X line, diverging from the specified behaviour. -/
theorem terminal_ignores_winning_line :
    terminal xWinBoard = false ∧
    hasWinningLine xWinBoard = true ∧
    spec_terminal xWinBoard = true := by
  decide

/-- C7: the claim states that `result` returns the updated board on a
legal move, raises `GameOver` on a terminal board and `InvalidAction` on
an occupied cell.  The source instead raises `TypeError` on every path:
on the legal move (0, 0) from the initial board (the assignment
`result_board[i, j] = p` indexes a list with a tuple), on a terminal
board (instantiating `GameOver` without its two required arguments), and
on an occupied cell (same for `InvalidAction`). -/
theorem result_always_type_error :
    result initial_state (0, 0) = Outcome.typeError ∧
    result fullBoard (0, 0) = Outcome.typeError ∧
    result xWinBoard (0, 0) = Outcome.typeError ∧
    spec_result initial_state (0, 0) =
      Outcome.ok
        [[some .X, none, none],
         [none, none, none],
         [none, none, none]] ∧
    result initial_state (0, 0) ≠ spec_result initial_state (0, 0) := by
  decide

end TicTacToe

namespace Knights

/-- A propositional sentence, mirroring the tagged variants of the spec
data model and of the `logic` classes used by `puzzle.py`: symbols,
negation, variadic conjunction and disjunction, implication and
biconditional. -/
inductive Sentence where
  | symbol (name : String)
  | not (s : Sentence)
  | and (conjuncts : List Sentence)
  | or (disjuncts : List Sentence)
  | implication (antecedent consequent : Sentence)
  | biconditional (left right : Sentence)

mutual

/-- Modelled from the spec: the evaluation semantics of section 4.1 (the
`logic` module of the source is not part of the repository).  A model is
a total boolean assignment to symbol names. -/
def evaluate : Sentence → (String → Bool) → Bool
  | .symbol name, model => model name
  | .not s, model => !(evaluate s model)
  | .and cs, model => evalConj cs model
  | .or ds, model => evalDisj ds model
  | .implication a b, model => !(evaluate a model) || evaluate b model
  | .biconditional a b, model => evaluate a model == evaluate b model

/-- Conjunction over a list of sentences: the empty conjunction is
true. -/
def evalConj : List Sentence → (String → Bool) → Bool
  | [], _ => true
  | s :: rest, model => evaluate s model && evalConj rest model

/-- Disjunction over a list of sentences: the empty disjunction is
false. -/
def evalDisj : List Sentence → (String → Bool) → Bool
  | [], _ => false
  | s :: rest, model => evaluate s model || evalDisj rest model

end

mutual

/-- Modelled from the spec: the set of symbol names appearing in a
sentence, as a duplicate-free list. -/
def symbolsIn : Sentence → List String
  | .symbol name => [name]
  | .not s => symbolsIn s
  | .and cs => symbolsList cs
  | .or ds => symbolsList ds
  | .implication a b => (symbolsIn a ++ symbolsIn b).dedup
  | .biconditional a b => (symbolsIn a ++ symbolsIn b).dedup

/-- Symbol names appearing in a list of sentences. -/
def symbolsList : List Sentence → List String
  | [] => []
  | s :: rest => (symbolsIn s ++ symbolsList rest).dedup

end

/-- All total boolean assignments over the given list of symbol names;
names outside the list are mapped to false. -/
def modelsOver : List String → List (String → Bool)
  | [] => [fun _ => false]
  | s :: rest =>
      (modelsOver rest).map (fun m t => if t = s then true else m t) ++
      (modelsOver rest).map (fun m t => if t = s then false else m t)

/-- Modelled from the spec: entailment by model checking, section 4.1.
Enumerate all assignments over the symbols of the knowledge base and of
the query; the knowledge base entails the query iff every assignment
satisfying the former satisfies the latter. -/
def entails (knowledge query : Sentence) : Bool :=
  (modelsOver ((symbolsIn knowledge ++ symbolsIn query).dedup)).all
    (fun m => !(evaluate knowledge m) || evaluate query m)

/-- The symbol `AKnight` of `puzzle.py`. -/
def AKnight : Sentence := .symbol "A is a Knight"

/-- The symbol `AKnave` of `puzzle.py`. -/
def AKnave : Sentence := .symbol "A is a Knave"

/-- The symbol `BKnight` of `puzzle.py`. -/
def BKnight : Sentence := .symbol "B is a Knight"

/-- The symbol `BKnave` of `puzzle.py`. -/
def BKnave : Sentence := .symbol "B is a Knave"

/-- Embedding of `knowledge2` from `puzzle.py`: the Puzzle 2 knowledge
base (A says both are of the same kind, B says they are of different
kinds). -/
def knowledge2 : Sentence :=
  .and
    [.or [AKnight, AKnave],
     .implication AKnight (.not AKnave),
     .or [BKnight, BKnave],
     .implication BKnight (.not BKnave),
     .biconditional AKnight
       (.or [.and [AKnight, BKnight], .and [AKnave, BKnave]]),
     .biconditional BKnight
       (.or [.and [AKnight, BKnave], .and [AKnave, BKnight]])]

/-- C10: under the evaluation and entailment semantics of the spec, the
Puzzle 2 knowledge base entails `AKnave` and `BKnight`, and entails
neither `AKnight` nor `BKnave`. -/
theorem knowledge2_entailments :
    entails knowledge2 AKnave = true ∧
    entails knowledge2 BKnight = true ∧
    entails knowledge2 AKnight = false ∧
    entails knowledge2 BKnave = false := by
  decide

end Knights

namespace PageRank

/-- A corpus, mirroring the Python dictionary mapping each page name to
the set of page names it links to; the set is embedded as a
duplicate-free list. -/
abbrev Corpus := List (String × List String)

/-- The out-set `corpus[page]` of a page: lookup in the association
list, with an absent key giving the empty out-set. -/
def corpusLinks (corpus : Corpus) (page : String) : List String :=
  match corpus with
  | [] => []
  | (k, links) :: rest => if k = page then links else corpusLinks rest page

/-- Embedding of `transition_model` from `pagerank.py`: with at least one
out-link, every page gets `(1 - d) / N` and every linked page
additionally gets `d / |links|`; with no out-links the distribution is
uniform.  The Python dictionary over the corpus keys is embedded as a
function; it is only ever read at corpus keys. -/
def transition_model (corpus : Corpus) (page : String)
    (damping_factor : ℚ) : String → ℚ :=
  let links := corpusLinks corpus page
  if links.length ≠ 0 then
    fun q =>
      (1 - damping_factor) / (corpus.length : ℚ) +
        (if q ∈ links then damping_factor / (links.length : ℚ) else 0)
  else
    fun _ => 1 / (corpus.length : ℚ)

/-- Embedding of `iterative_sum` from `pagerank.py`.  The `page`
parameter of the source is immediately shadowed by the loop variable
`for page in distribution`, so the result does not depend on it: the
loop adds `distribution[q] / len(corpus[q])` for every page q of the
corpus, whether or not q links to the queried page.  A page q with no
out-links makes the division raise `ZeroDivisionError`, embedded as
`none`. -/
def iterative_sum (corpus : Corpus) (distribution : String → ℚ)
    (page : String) : Option ℚ :=
  (corpus.map Prod.fst).foldl
    (fun acc q =>
      match acc with
      | none => none
      | some s =>
          let links := (corpusLinks corpus q).length
          if links = 0 then none
          else some (s + distribution q / (links : ℚ)))
    (some 0)

/-- The initial rank vector of `iterate_pagerank`: every page starts at
`1 / N`. -/
def initialRanks (corpus : Corpus) : String → ℚ :=
  fun _ => 1 / (corpus.length : ℚ)

/-- One pass of the update loop of `iterate_pagerank` from
`pagerank.py`: the source snapshots the ranks into `distribution` and
then reassigns `ranks[page] = (1 - d) / n + d * iterative_sum(corpus,
distribution, page)` for every page, repeating passes until every change
is at most 0.001.  The claims concern a single pass, embedded here; a
`ZeroDivisionError` inside `iterative_sum` is propagated as `none`. -/
def iteratePass (corpus : Corpus) (damping_factor : ℚ)
    (ranks : String → ℚ) : Option (String → ℚ) :=
  (corpus.map Prod.fst).foldl
    (fun acc page =>
      match acc with
      | none => none
      | some r =>
          match iterative_sum corpus ranks page with
          | none => none
          | some s =>
              some (fun q =>
                if q = page then
                  (1 - damping_factor) / (corpus.length : ℚ) +
                    damping_factor * s
                else r q))
    (some ranks)

/-- Modelled from the spec: the iterative update formula of section 4.3,
`new_rank(p) = (1 - d) / N + d * sum over q with p in L(q) of
rank(q) / |L(q)|`, a dangling page q instead contributing
`rank(q) / N` to every page. -/
def spec_newRank (corpus : Corpus) (d : ℚ) (rank : String → ℚ)
    (p : String) : ℚ :=
  (1 - d) / (corpus.length : ℚ) +
    d * (corpus.foldl
      (fun acc entry =>
        acc +
          (if entry.2.length = 0 then rank entry.1 / (corpus.length : ℚ)
           else if p ∈ entry.2 then rank entry.1 / (entry.2.length : ℚ)
           else 0))
      0)

/-- Embedding of `sample_pagerank` from `pagerank.py`.  The source does
not keep a visit histogram: at step i it mixes the transition
distribution of the current page into a running average
`distribution[p] = ((i - 1) * distribution[p] + current[p]) / i`, and
the inner loop variable shadows `page`, after which the next page is
drawn from the running average rather than from the transition model.
The random draws (`random.choice` for the initial page and
`random.choices` after each step) are abstracted as the `initialPage`
argument and the `picks` oracle. -/
def sample_pagerank (corpus : Corpus) (damping_factor : ℚ) (n : Nat)
    (initialPage : String) (picks : Nat → String) : String → ℚ :=
  let keys := corpus.map Prod.fst
  (((List.range' 1 (n - 1)).foldl
    (fun (state : (String → ℚ) × String) (i : Nat) =>
      let current_distribution :=
        transition_model corpus state.2 damping_factor
      let dist := fun p =>
        if p ∈ keys then
          (((i : ℚ) - 1) * state.1 p + current_distribution p) / (i : ℚ)
        else state.1 p
      (dist, picks i))
    ((fun _ => 0), initialPage)).1)

/-- The two-page cyclic corpus with pages 1 and 2 linking to each
other. -/
def corpus2 : Corpus := [("1", ["2"]), ("2", ["1"])]

/-- A corpus whose page 2 is dangling (no out-links). -/
def corpusDangling : Corpus := [("1", ["2"]), ("2", [])]

/-- C3: the claim states that each update step of the iterative
estimator sums only over the pages that link to p and handles dangling
pages without dividing by zero.  On the two-page cycle with initial
ranks 1/2 and d = 0.85, the source update gives page 1 the rank 37/40 =
0.925 (it sums rank(q)/|L(q)| over every page q, including page 1
itself, which does not link to page 1), while the specified formula
gives 1/2; and on a corpus with a dangling page the source divides by
zero (raising `ZeroDivisionError`, embedded as `none`). -/
theorem iterative_sum_ignores_links :
    (iteratePass corpus2 (17/20) (initialRanks corpus2)).map
        (fun f => f "1") = some (37/40) ∧
    spec_newRank corpus2 (17/20) (initialRanks corpus2) "1" = 1/2 ∧
    ((37 : ℚ)/40) ≠ 1/2 ∧
    iteratePass corpusDangling (17/20) (initialRanks corpusDangling) =
      none := by
  refine ⟨?_, ?_, by norm_num, rfl⟩
  · simp [iteratePass, iterative_sum, corpus2, corpusLinks, initialRanks]
    norm_num
  · simp [spec_newRank, corpus2, initialRanks]
    norm_num

/-- C4: the claim states that `sample_pagerank` returns, for each page,
the fraction of the n sampled visits that landed on it.  With n = 2 on
the two-page cycle, starting at page 1 with d = 0.85, the source returns
3/40 = 0.075 for page 1 whatever the random draws, because it returns
the running average of transition distributions; a fraction of 2 visits
can only be 0, 1/2 or 1, and 3/40 is none of these. -/
theorem sample_pagerank_not_visit_fraction :
    ∀ picks : Nat → String,
      sample_pagerank corpus2 (17/20) 2 "1" picks "1" = 3/40 ∧
      (((3 : ℚ)/40) ≠ 0 ∧ ((3 : ℚ)/40) ≠ 1/2 ∧ ((3 : ℚ)/40) ≠ 1) := by
  intro picks
  refine ⟨?_, by norm_num, by norm_num, by norm_num⟩
  simp [sample_pagerank, transition_model, corpus2, corpusLinks,
    List.range']
  norm_num

/-- C5: the claim states that the rank vector sums to 1 after every
update pass of the iterative estimator.  On the two-page cycle with
d = 0.85, one pass of the source update yields ranks 37/40 and 37/40,
whose sum 37/20 = 1.85 is not 1 (the flawed `iterative_sum` inflates
every rank by the whole snapshot mass). -/
theorem iterate_breaks_conservation :
    (iteratePass corpus2 (17/20) (initialRanks corpus2)).map
        (fun f => f "1" + f "2") = some (37/20) ∧
    ((37 : ℚ)/20) ≠ 1 := by
  refine ⟨?_, by norm_num⟩
  simp [iteratePass, iterative_sum, corpus2, corpusLinks, initialRanks]
  norm_num

end PageRank

namespace Heredity

/-- The mutation probability `PROBS["mutation"]` of `heredity.py`. -/
def mutation : ℚ := 1/100

/-- The unconditional gene table `PROBS["gene"]` of `heredity.py`. -/
def probs_gene : Nat → ℚ
  | 2 => 1/100
  | 1 => 3/100
  | _ => 96/100

/-- The trait table `PROBS["trait"]` of `heredity.py`: probability of the
given trait value for each gene count. -/
def probs_trait : Nat → Bool → ℚ
  | 2, true => 65/100
  | 2, false => 35/100
  | 1, true => 56/100
  | 1, false => 44/100
  | _, true => 1/100
  | _, false => 99/100

/-- A person record as `load_data` produces it: name, optional mother
and father names, and the observed trait (`None` when unknown). -/
structure Person where
  name : String
  mother : Option String
  father : Option String
  trait : Option Bool
deriving DecidableEq, Repr

/-- A family: the list of person records of the CSV file.  The Python
dictionary maps each name to its record; the keys are the names of the
records. -/
abbrev People := List Person

/-- Membership of an optional parent name in a set of names: in Python,
`None in s` is false for a set of strings, so a missing parent is in
neither `one_gene` nor `two_genes`. -/
def optMem (parent : Option String) (s : List String) : Bool :=
  match parent with
  | none => false
  | some name => decide (name ∈ s)

/-- The gene-count factor a person contributes in `joint_probability` of
`heredity.py`, mirroring the branch on the membership of the person in
`one_gene` and `two_genes` and the nested branches on the memberships of
the parents.  In the source the zero-gene branch multiplies the same
transmit probabilities as the two-gene branch (0.5, 1 - mutation,
mutation) instead of their complements, which this embedding
reproduces. -/
def geneFactor (one_gene two_genes : List String) (p : Person) : ℚ :=
  if p.name ∈ one_gene then
    if p.mother = none ∧ p.father = none then probs_gene 1
    else
      -- p1 of the source: the gene comes from the mother and not the
      -- father; p2: from the father and not the mother
      (if optMem p.mother one_gene then 1/2
       else if optMem p.mother two_genes then 1 - mutation
       else mutation) *
        (if optMem p.father one_gene then 1/2
         else if optMem p.father two_genes then mutation
         else 1 - mutation) +
      (if optMem p.mother one_gene then 1/2
       else if optMem p.mother two_genes then mutation
       else 1 - mutation) *
        (if optMem p.father one_gene then 1/2
         else if optMem p.father two_genes then 1 - mutation
         else mutation)
  else if p.name ∈ two_genes then
    if p.mother = none ∧ p.father = none then probs_gene 2
    else
      (if optMem p.mother one_gene then 1/2
       else if optMem p.mother two_genes then 1 - mutation
       else mutation) *
      (if optMem p.father one_gene then 1/2
       else if optMem p.father two_genes then 1 - mutation
       else mutation)
  else
    if p.mother = none ∧ p.father = none then probs_gene 0
    else
      (if optMem p.mother one_gene then 1/2
       else if optMem p.mother two_genes then 1 - mutation
       else mutation) *
      (if optMem p.father one_gene then 1/2
       else if optMem p.father two_genes then 1 - mutation
       else mutation)

/-- The whole factor a person contributes in `joint_probability` of
`heredity.py`.  Inside the `one_gene` branch the source multiplies by
`PROBS["trait"][1][...]` and inside the `two_genes` branch by
`PROBS["trait"][2][...]`; the final line
`probability *= PROBS["trait"][0][person in have_trait]` sits outside
the branch (at loop level), so it applies in every branch, which the
trailing factor here reproduces. -/
def personProbability (one_gene two_genes have_trait : List String)
    (p : Person) : ℚ :=
  (if p.name ∈ one_gene then
     geneFactor one_gene two_genes p *
       probs_trait 1 (decide (p.name ∈ have_trait))
   else if p.name ∈ two_genes then
     geneFactor one_gene two_genes p *
       probs_trait 2 (decide (p.name ∈ have_trait))
   else geneFactor one_gene two_genes p) *
  probs_trait 0 (decide (p.name ∈ have_trait))

/-- Embedding of `joint_probability` from `heredity.py`: the product
over all people of the per-person factors, accumulated left to right as
the source loop does. -/
def joint_probability (people : People)
    (one_gene two_genes have_trait : List String) : ℚ :=
  people.foldl
    (fun cumulative p =>
      cumulative * personProbability one_gene two_genes have_trait p)
    1

/-- Modelled from the spec: the probability that a parent in the given
gene sets transmits the harmful allele — 0.5 for one copy, 1 - mutation
for two copies, mutation for none (section 4.2). -/
def spec_transmit (one_gene two_genes : List String)
    (parent : String) : ℚ :=
  if parent ∈ one_gene then 1/2
  else if parent ∈ two_genes then 1 - mutation
  else mutation

/-- A family of one person with no parents and no observed trait, the
scenario family of section 8 of the spec. -/
def harryFamily : People := [⟨"harry", none, none, none⟩]

/-- A child whose mother and father both carry two copies of the gene. -/
def childOfCarriers : Person := ⟨"c", some "m", some "f", none⟩

/-- C1: the claim states that `joint_probability` multiplies, per
person, the gene factor and one trait-table entry for the gene count of
the branch.  For the one-person family with `one_gene` = {harry} and
`have_trait` = {harry} the claimed value is
`PROBS.gene[1] * PROBS.trait[1][True] = 21/1250`, but the source also
multiplies the stray `PROBS.trait[0][True]` factor and returns
21/125000. -/
theorem joint_probability_double_trait_factor :
    joint_probability harryFamily ["harry"] [] ["harry"] = 21/125000 ∧
    probs_gene 1 * probs_trait 1 true = 21/1250 ∧
    ((21 : ℚ)/125000) ≠ 21/1250 := by
  refine ⟨?_, by norm_num [probs_gene, probs_trait], by norm_num⟩
  simp [joint_probability, harryFamily, personProbability, geneFactor,
    probs_gene, probs_trait]
  norm_num

/-- C2: the claim states that for a person with two parents who is in
neither `one_gene` nor `two_genes`, the gene factor is
`(1 - a) * (1 - b)` with a and b the transmit probabilities of the
parents.  With both parents in `two_genes` (a = b = 1 - mutation =
99/100) the claimed factor is 1/10000, but the source multiplies the
transmit probabilities themselves instead of their complements and
yields 9801/10000. -/
theorem zero_gene_factor_not_complemented :
    geneFactor [] ["m", "f"] childOfCarriers = 9801/10000 ∧
    (1 - spec_transmit [] ["m", "f"] "m") *
        (1 - spec_transmit [] ["m", "f"] "f") = 1/10000 ∧
    ((9801 : ℚ)/10000) ≠ 1/10000 := by
  refine ⟨?_, ?_, by norm_num⟩
  · simp [geneFactor, childOfCarriers, optMem, mutation]
    norm_num
  · simp [spec_transmit, mutation]
    norm_num

/-- The per-person buckets of the `probabilities` dictionary that `main`
builds: one accumulator per gene count (2, 1, 0) and per trait value. -/
structure PersonDist where
  gene2 : ℚ
  gene1 : ℚ
  gene0 : ℚ
  traitTrue : ℚ
  traitFalse : ℚ
deriving DecidableEq, Repr

/-- The all-zero buckets every person starts with in `main`. -/
def initDist : PersonDist := ⟨0, 0, 0, 0, 0⟩

/-- The `probabilities` dictionary of `main`, embedded as a function
from names; only the names of the family are ever read. -/
abbrev Probabilities := String → PersonDist

/-- Embedding of `update` from `heredity.py`: for every person of the
dictionary, add the joint probability to the gene bucket selected by the
membership in `one_gene` and `two_genes` and to the trait bucket
selected by the membership in `have_trait`. -/
def update (probabilities : Probabilities) (names : List String)
    (one_gene two_genes have_trait : List String) (p : ℚ) :
    Probabilities :=
  fun name =>
    if name ∈ names then
      let d := probabilities name
      let d1 :=
        if name ∈ one_gene then { d with gene1 := d.gene1 + p }
        else if name ∈ two_genes then { d with gene2 := d.gene2 + p }
        else { d with gene0 := d.gene0 + p }
      if name ∈ have_trait then { d1 with traitTrue := d1.traitTrue + p }
      else { d1 with traitFalse := d1.traitFalse + p }
    else probabilities name

/-- The evidence check of `main` in `heredity.py`: an assignment of
`have_trait` fails when some person has an observed trait that differs
from the membership of the person in `have_trait`. -/
def failsEvidence (people : People) (have_trait : List String) : Bool :=
  people.any (fun person =>
    match person.trait with
    | none => false
    | some t => t != decide (person.name ∈ have_trait))

/-- The enumeration loop of `main` in `heredity.py`: iterate over every
`have_trait` subset of the names (the powerset of a set is embedded as
the sublists of its element list), skip the subsets that violate the
observed traits, and for every `one_gene` subset of the names and every
`two_genes` subset of the remaining names add the joint probability of
the assignment to the buckets. -/
def enumerate (people : People) : Probabilities :=
  let names := people.map Person.name
  names.sublists.foldl
    (fun probs have_trait =>
      if failsEvidence people have_trait then probs
      else
        names.sublists.foldl
          (fun probs2 one_gene =>
            ((names.filter (fun n => n ∉ one_gene)).sublists).foldl
              (fun probs3 two_genes =>
                update probs3 names one_gene two_genes have_trait
                  (joint_probability people one_gene two_genes have_trait))
              probs2)
          probs)
    (fun _ => initDist)

/-- The gene-bucket sum computed by `normalize`, in the loop order of
the source (i = 0, 1, 2). -/
def geneSum (d : PersonDist) : ℚ := d.gene0 + d.gene1 + d.gene2

/-- The trait-bucket sum computed by `normalize`. -/
def traitSum (d : PersonDist) : ℚ := d.traitTrue + d.traitFalse

/-- The bucket of the given trait value. -/
def traitBucket (d : PersonDist) (b : Bool) : ℚ :=
  if b then d.traitTrue else d.traitFalse

/-- The per-person body of `normalize`: divide every gene bucket by the
gene sum and every trait bucket by the trait sum. -/
def normalizeDist (d : PersonDist) : PersonDist :=
  { gene2 := d.gene2 / geneSum d
    gene1 := d.gene1 / geneSum d
    gene0 := d.gene0 / geneSum d
    traitTrue := d.traitTrue / traitSum d
    traitFalse := d.traitFalse / traitSum d }

/-- Embedding of `normalize` from `heredity.py`: normalize the buckets
of each person in turn.  In Python a zero sum makes the float division
raise `ZeroDivisionError`, aborting the loop; the abort is embedded as
`none`. -/
def normalize : List String → Probabilities → Option Probabilities
  | [], probabilities => some probabilities
  | name :: rest, probabilities =>
      if geneSum (probabilities name) = 0 then none
      else if traitSum (probabilities name) = 0 then none
      else
        normalize rest
          (fun n =>
            if n = name then normalizeDist (probabilities name)
            else probabilities n)

lemma probs_gene_pos (g : Nat) : 0 < probs_gene g := by
  unfold probs_gene
  split <;> norm_num

lemma probs_trait_pos (g : Nat) (b : Bool) : 0 < probs_trait g b := by
  unfold probs_trait
  split <;> norm_num

lemma geneFactor_pos (one_gene two_genes : List String) (p : Person) :
    0 < geneFactor one_gene two_genes p := by
  have h2 := probs_gene_pos 2
  have h1 := probs_gene_pos 1
  have h0 := probs_gene_pos 0
  unfold geneFactor mutation
  split_ifs <;> first | assumption | norm_num

lemma personProbability_pos (og tg ht : List String) (p : Person) :
    0 < personProbability og tg ht p := by
  have hg := geneFactor_pos og tg p
  unfold personProbability
  split_ifs
  · exact mul_pos (mul_pos hg (probs_trait_pos 1 _)) (probs_trait_pos 0 _)
  · exact mul_pos (mul_pos hg (probs_trait_pos 2 _)) (probs_trait_pos 0 _)
  · exact mul_pos hg (probs_trait_pos 0 _)

lemma joint_foldl_pos (og tg ht : List String) (l : People) (acc : ℚ)
    (hacc : 0 < acc) :
    0 < l.foldl
      (fun cumulative p =>
        cumulative * personProbability og tg ht p) acc := by
  induction l generalizing acc with
  | nil => simpa using hacc
  | cons p rest ih =>
      rw [List.foldl_cons]
      exact ih _ (mul_pos hacc (personProbability_pos og tg ht p))

lemma joint_probability_pos (people : People)
    (og tg ht : List String) :
    0 < joint_probability people og tg ht :=
  joint_foldl_pos og tg ht people 1 one_pos

lemma consistent_of_not_fails {people : People} {ht : List String}
    (h : failsEvidence people ht = false) {p : Person} (hp : p ∈ people)
    {t : Bool} (htrait : p.trait = some t) :
    decide (p.name ∈ ht) = t := by
  unfold failsEvidence at h
  rw [List.any_eq_false] at h
  have h2 := h p hp
  rw [htrait] at h2
  simp only [bne_iff_ne, ne_eq, Decidable.not_not] at h2
  exact h2.symm

lemma update_geneSum {probs : Probabilities}
    {names og tg ht : List String} {j : ℚ} {n : String}
    (hn : n ∈ names) :
    geneSum (update probs names og tg ht j n) = geneSum (probs n) + j := by
  unfold update geneSum
  by_cases h1 : n ∈ og <;> by_cases h2 : n ∈ tg <;>
    by_cases h3 : n ∈ ht <;>
    simp [hn, h1, h2, h3] <;> ring

lemma update_traitSum {probs : Probabilities}
    {names og tg ht : List String} {j : ℚ} {n : String}
    (hn : n ∈ names) :
    traitSum (update probs names og tg ht j n) =
      traitSum (probs n) + j := by
  unfold update traitSum
  by_cases h1 : n ∈ og <;> by_cases h2 : n ∈ tg <;>
    by_cases h3 : n ∈ ht <;>
    simp [hn, h1, h2, h3] <;> ring

lemma update_bucket_other {probs : Probabilities}
    {names og tg ht : List String} {j : ℚ} {n : String} {t : Bool}
    (hcons : decide (n ∈ ht) = t) :
    traitBucket (update probs names og tg ht j n) (!t) =
      traitBucket (probs n) (!t) := by
  unfold update traitBucket
  by_cases hn : n ∈ names
  · cases t with
    | true =>
        have h3 : n ∈ ht := of_decide_eq_true hcons
        by_cases h1 : n ∈ og <;> by_cases h2 : n ∈ tg <;>
          simp [hn, h1, h2, h3]
    | false =>
        have h3 : n ∉ ht := of_decide_eq_false hcons
        by_cases h1 : n ∈ og <;> by_cases h2 : n ∈ tg <;>
          simp [hn, h1, h2, h3]
  · simp [hn]

/-- Invariant of the enumeration state: every family member carries
equal gene and trait masses M, and the bucket of the trait value that
contradicts the observation of the tracked person is empty. -/
def GoodState (names : List String) (pname : String) (t : Bool)
    (probs : Probabilities) (M : ℚ) : Prop :=
  (∀ n ∈ names, geneSum (probs n) = M ∧ traitSum (probs n) = M) ∧
  traitBucket (probs pname) (!t) = 0

lemma update_good {names : List String} {pname : String} {t : Bool}
    {probs : Probabilities} {M : ℚ} (og tg ht : List String) (j : ℚ)
    (hg : GoodState names pname t probs M)
    (hcons : decide (pname ∈ ht) = t) :
    GoodState names pname t (update probs names og tg ht j) (M + j) := by
  obtain ⟨hsums, hbucket⟩ := hg
  refine ⟨fun n hn => ?_, ?_⟩
  · obtain ⟨hgs, hts⟩ := hsums n hn
    rw [update_geneSum hn, update_traitSum hn, hgs, hts]
    exact ⟨rfl, rfl⟩
  · rw [update_bucket_other hcons]
    exact hbucket

lemma sublists_ne_nil {α : Type} (l : List α) : l.sublists ≠ [] := by
  intro h
  have hlen := List.length_sublists l
  rw [h] at hlen
  have hpos : 0 < 2 ^ l.length := pow_pos (by norm_num) l.length
  simp at hlen
  omega

lemma inner_fold_good (people : People) {names : List String}
    {pname : String} {t : Bool} (og ht : List String)
    (l : List (List String)) {probs : Probabilities} {M : ℚ}
    (hg : GoodState names pname t probs M)
    (hcons : decide (pname ∈ ht) = t) :
    ∃ M2, GoodState names pname t
        (l.foldl
          (fun probs3 two_genes =>
            update probs3 names og two_genes ht
              (joint_probability people og two_genes ht))
          probs) M2 ∧
      M ≤ M2 ∧ (l ≠ [] → M < M2) := by
  induction l generalizing probs M with
  | nil => exact ⟨M, hg, le_refl M, by simp⟩
  | cons tg rest ih =>
      rw [List.foldl_cons]
      have hj := joint_probability_pos people og tg ht
      obtain ⟨M2, h1, h2, h3⟩ :=
        ih (update_good og tg ht _ hg hcons)
      exact ⟨M2, h1, by linarith, fun _ => by linarith⟩

lemma middle_fold_good (people : People) {names : List String}
    {pname : String} {t : Bool} (ht : List String)
    (l : List (List String)) {probs : Probabilities} {M : ℚ}
    (hg : GoodState names pname t probs M)
    (hcons : decide (pname ∈ ht) = t) :
    ∃ M2, GoodState names pname t
        (l.foldl
          (fun probs2 one_gene =>
            ((names.filter (fun n => n ∉ one_gene)).sublists).foldl
              (fun probs3 two_genes =>
                update probs3 names one_gene two_genes ht
                  (joint_probability people one_gene two_genes ht))
              probs2)
          probs) M2 ∧
      M ≤ M2 ∧ (l ≠ [] → M < M2) := by
  induction l generalizing probs M with
  | nil => exact ⟨M, hg, le_refl M, by simp⟩
  | cons og rest ih =>
      rw [List.foldl_cons]
      obtain ⟨M1, h1, h2, h3⟩ :=
        inner_fold_good people og ht
          ((names.filter (fun n => n ∉ og)).sublists) hg hcons
      have hlt : M < M1 := h3 (sublists_ne_nil _)
      obtain ⟨M2, g1, g2, g3⟩ := ih h1
      exact ⟨M2, g1, by linarith, fun _ => by linarith⟩

lemma outer_fold_good (people : People) {names : List String}
    {p : Person} {t : Bool} (hp : p ∈ people)
    (htrait : p.trait = some t) (l : List (List String))
    {probs : Probabilities} {M : ℚ}
    (hg : GoodState names p.name t probs M) :
    ∃ M2, GoodState names p.name t
        (l.foldl
          (fun probs0 have_trait =>
            if failsEvidence people have_trait then probs0
            else
              names.sublists.foldl
                (fun probs2 one_gene =>
                  ((names.filter (fun n => n ∉ one_gene)).sublists).foldl
                    (fun probs3 two_genes =>
                      update probs3 names one_gene two_genes have_trait
                        (joint_probability people one_gene two_genes
                          have_trait))
                    probs2)
                probs0)
          probs) M2 ∧
      M ≤ M2 ∧
      ((∃ h0 ∈ l, failsEvidence people h0 = false) → M < M2) := by
  induction l generalizing probs M with
  | nil =>
      refine ⟨M, hg, le_refl M, ?_⟩
      rintro ⟨h0, hmem, _⟩
      simp at hmem
  | cons ht rest ih =>
      rw [List.foldl_cons]
      by_cases hfail : failsEvidence people ht = true
      · rw [if_pos hfail]
        obtain ⟨M2, g1, g2, g3⟩ := ih hg
        refine ⟨M2, g1, g2, ?_⟩
        rintro ⟨h0, hmem, hh0⟩
        rcases List.mem_cons.mp hmem with rfl | hmem2
        · rw [hfail] at hh0
          cases hh0
        · exact g3 ⟨h0, hmem2, hh0⟩
      · have hfalse : failsEvidence people ht = false := by
          simpa using hfail
        rw [if_neg hfail]
        have hcons := consistent_of_not_fails hfalse hp htrait
        obtain ⟨M1, h1, h2, h3⟩ :=
          middle_fold_good people ht names.sublists hg hcons
        have hlt : M < M1 := h3 (sublists_ne_nil _)
        obtain ⟨M2, g1, g2, g3⟩ := ih h1
        exact ⟨M2, g1, by linarith, fun _ => by linarith⟩

lemma enumerate_good (people : People) {p : Person} {t : Bool}
    (hp : p ∈ people) (htrait : p.trait = some t)
    (hcons : ∃ h0 ∈ (people.map Person.name).sublists,
      failsEvidence people h0 = false) :
    ∃ M, GoodState (people.map Person.name) p.name t
        (enumerate people) M ∧ 0 < M := by
  have hinit : GoodState (people.map Person.name) p.name t
      (fun _ => initDist) 0 := by
    refine ⟨fun n _ => ?_, ?_⟩
    · simp [geneSum, traitSum, initDist]
    · cases t <;> simp [traitBucket, initDist]
  obtain ⟨M2, h1, h2, h3⟩ :=
    outer_fold_good people hp htrait
      ((people.map Person.name).sublists) hinit
  exact ⟨M2, h1, by have := h3 hcons; linarith⟩

lemma normalize_some (names : List String) (probs : Probabilities)
    (hnd : names.Nodup)
    (hpos : ∀ n ∈ names, geneSum (probs n) ≠ 0 ∧ traitSum (probs n) ≠ 0) :
    ∃ final, normalize names probs = some final ∧
      (∀ n ∈ names, final n = normalizeDist (probs n)) ∧
      (∀ n, n ∉ names → final n = probs n) := by
  induction names generalizing probs with
  | nil => exact ⟨probs, rfl, by simp, fun n _ => rfl⟩
  | cons name rest ih =>
      obtain ⟨hgz, htz⟩ := hpos name (List.mem_cons_self _ _)
      have hnotin : name ∉ rest := (List.nodup_cons.mp hnd).1
      have hndr : rest.Nodup := (List.nodup_cons.mp hnd).2
      have hposr : ∀ n ∈ rest,
          geneSum ((fun m =>
            if m = name then normalizeDist (probs name) else probs m) n) ≠ 0 ∧
          traitSum ((fun m =>
            if m = name then normalizeDist (probs name) else probs m) n) ≠ 0 := by
        intro n hn
        have hne : n ≠ name := fun h => hnotin (h ▸ hn)
        simpa [hne] using hpos n (List.mem_cons_of_mem _ hn)
      obtain ⟨final, hn2, hv, ho⟩ := ih _ hndr hposr
      refine ⟨final, ?_, ?_, ?_⟩
      · rw [normalize, if_neg hgz, if_neg htz]
        exact hn2
      · intro n hn
        rcases List.mem_cons.mp hn with rfl | hn2m
        · rw [ho n hnotin]
          simp
        · have hne : n ≠ name := fun h => hnotin (h ▸ hn2m)
          rw [hv n hn2m]
          simp [hne]
      · intro n hn
        have hne : n ≠ name := fun h => hn (h ▸ List.mem_cons_self _ _)
        rw [ho n (fun h => hn (List.mem_cons_of_mem _ h))]
        simp [hne]

lemma normalize_none (names : List String) (probs : Probabilities)
    (hzero : ∃ n ∈ names,
      geneSum (probs n) = 0 ∨ traitSum (probs n) = 0) :
    normalize names probs = none := by
  induction names generalizing probs with
  | nil =>
      obtain ⟨n, hn, _⟩ := hzero
      simp at hn
  | cons name rest ih =>
      obtain ⟨n, hn, hz⟩ := hzero
      by_cases hg : geneSum (probs name) = 0
      · rw [normalize, if_pos hg]
      · by_cases ht2 : traitSum (probs name) = 0
        · rw [normalize, if_neg hg, if_pos ht2]
        · rw [normalize, if_neg hg, if_neg ht2]
          apply ih
          have hne : n ≠ name := by
            rintro rfl
            rcases hz with h | h
            exacts [hg h, ht2 h]
          have hnr : n ∈ rest := by
            rcases List.mem_cons.mp hn with rfl | h
            · exact absurd rfl hne
            · exact h
          exact ⟨n, hnr, by simpa [hne] using hz⟩

lemma geneSum_normalizeDist {d : PersonDist} (h : geneSum d ≠ 0) :
    geneSum (normalizeDist d) = 1 := by
  unfold geneSum at h
  simp only [geneSum, normalizeDist]
  rw [div_add_div_same, div_add_div_same, div_self h]

lemma traitSum_normalizeDist {d : PersonDist} (h : traitSum d ≠ 0) :
    traitSum (normalizeDist d) = 1 := by
  unfold traitSum at h
  simp only [traitSum, normalizeDist]
  rw [div_add_div_same, div_self h]

/-- C8: whenever the observed evidence admits at least one consistent
`have_trait` assignment, every enumerated assignment with a trait value
contradicting an observed person is skipped, so after normalization the
person carries trait probability 1 on the observed value and 0 on the
contradicted one. -/
theorem inference_respects_evidence (people : People) (p : Person)
    (t : Bool) (hnd : (people.map Person.name).Nodup)
    (hp : p ∈ people) (htrait : p.trait = some t)
    (hcons : ∃ h0 ∈ (people.map Person.name).sublists,
      failsEvidence people h0 = false) :
    ∃ final,
      normalize (people.map Person.name) (enumerate people) =
        some final ∧
      traitBucket (final p.name) t = 1 ∧
      traitBucket (final p.name) (!t) = 0 := by
  obtain ⟨M, ⟨hsums, hbucket⟩, hMpos⟩ :=
    enumerate_good people hp htrait hcons
  have hpos : ∀ n ∈ people.map Person.name,
      geneSum (enumerate people n) ≠ 0 ∧
      traitSum (enumerate people n) ≠ 0 := by
    intro n hn
    obtain ⟨hgs, hts⟩ := hsums n hn
    rw [hgs, hts]
    exact ⟨ne_of_gt hMpos, ne_of_gt hMpos⟩
  obtain ⟨final, hnorm, hvals, _⟩ :=
    normalize_some (people.map Person.name) (enumerate people) hnd hpos
  have hpn : p.name ∈ people.map Person.name :=
    List.mem_map_of_mem Person.name hp
  have hfp : final p.name = normalizeDist (enumerate people p.name) :=
    hvals p.name hpn
  obtain ⟨hgs, hts⟩ := hsums p.name hpn
  refine ⟨final, hnorm, ?_, ?_⟩ <;> rw [hfp]
  · cases t with
    | true =>
        have hf : (enumerate people p.name).traitFalse = 0 := by
          simpa [traitBucket] using hbucket
        have htt : (enumerate people p.name).traitTrue = M := by
          unfold traitSum at hts
          linarith
        simp only [traitBucket, normalizeDist, if_pos]
        rw [traitSum, hf, htt, add_zero, div_self (ne_of_gt hMpos)]
    | false =>
        have hf : (enumerate people p.name).traitTrue = 0 := by
          simpa [traitBucket] using hbucket
        have htt : (enumerate people p.name).traitFalse = M := by
          unfold traitSum at hts
          linarith
        simp only [traitBucket, normalizeDist]
        rw [if_neg (by simp), traitSum, hf, htt, zero_add,
          div_self (ne_of_gt hMpos)]
  · cases t with
    | true =>
        have hf : (enumerate people p.name).traitFalse = 0 := by
          simpa [traitBucket] using hbucket
        simp only [traitBucket, normalizeDist, Bool.not_true]
        rw [if_neg (by simp), hf, zero_div]
    | false =>
        have hf : (enumerate people p.name).traitTrue = 0 := by
          simpa [traitBucket] using hbucket
        simp only [traitBucket, normalizeDist, Bool.not_false]
        rw [if_pos (by simp), hf, zero_div]

/-- The one-person family with an observed trait, used to instantiate
the C8 theorem. -/
def harryObserved : People := [⟨"harry", none, none, some true⟩]

/-- Witness for C8: the hypotheses of the theorem hold for the
one-person family with observed trait true, and the conclusion follows
by applying the theorem there. -/
theorem inference_respects_evidence_witness :
    ((harryObserved.map Person.name).Nodup ∧
      (⟨"harry", none, none, some true⟩ : Person) ∈ harryObserved ∧
      (⟨"harry", none, none, some true⟩ : Person).trait = some true ∧
      (∃ h0 ∈ (harryObserved.map Person.name).sublists,
        failsEvidence harryObserved h0 = false)) ∧
    (∃ final,
      normalize (harryObserved.map Person.name)
        (enumerate harryObserved) = some final ∧
      traitBucket (final "harry") true = 1 ∧
      traitBucket (final "harry") (!true) = 0) :=
  ⟨⟨by decide, by decide, by decide, by decide⟩,
    inference_respects_evidence harryObserved
      ⟨"harry", none, none, some true⟩ true
      (by decide) (by decide) (by decide) (by decide)⟩

/-- C9: `normalize` aborts (the embedded `ZeroDivisionError`) exactly
when some listed person has a zero gene or trait sum, and with strictly
positive sums it succeeds and leaves every gene distribution and trait
distribution summing to 1. -/
theorem normalize_abort_or_one (names : List String)
    (probs : Probabilities) (hnd : names.Nodup) :
    ((∃ n ∈ names, geneSum (probs n) = 0 ∨ traitSum (probs n) = 0) →
      normalize names probs = none) ∧
    ((∀ n ∈ names, 0 < geneSum (probs n) ∧ 0 < traitSum (probs n)) →
      ∃ final, normalize names probs = some final ∧
        ∀ n ∈ names, geneSum (final n) = 1 ∧ traitSum (final n) = 1) := by
  constructor
  · exact normalize_none names probs
  · intro hpos
    obtain ⟨final, hn, hv, _⟩ :=
      normalize_some names probs hnd
        (fun n hn => ⟨ne_of_gt (hpos n hn).1, ne_of_gt (hpos n hn).2⟩)
    refine ⟨final, hn, fun n hnm => ?_⟩
    rw [hv n hnm]
    exact ⟨geneSum_normalizeDist (ne_of_gt (hpos n hnm).1),
      traitSum_normalizeDist (ne_of_gt (hpos n hnm).2)⟩

/-- A concrete all-positive probabilities table used to instantiate the
C9 theorem. -/
def constDist : Probabilities := fun _ => ⟨1, 2, 3, 4, 5⟩

/-- Witness for C9: the hypothesis of the theorem holds for the
one-element name list, and the conclusion follows by applying the
theorem there. -/
theorem normalize_abort_or_one_witness :
    (["alice"] : List String).Nodup ∧
    (((∃ n ∈ (["alice"] : List String),
        geneSum (constDist n) = 0 ∨ traitSum (constDist n) = 0) →
      normalize ["alice"] constDist = none) ∧
    ((∀ n ∈ (["alice"] : List String),
        0 < geneSum (constDist n) ∧ 0 < traitSum (constDist n)) →
      ∃ final, normalize ["alice"] constDist = some final ∧
        ∀ n ∈ (["alice"] : List String),
          geneSum (final n) = 1 ∧ traitSum (final n) = 1)) :=
  ⟨by decide, normalize_abort_or_one ["alice"] constDist (by decide)⟩

end Heredity
